import Mathlib

/-!
Verification of the bybit-macd-bot scan pipeline.

The development shallowly embeds the pure decision logic of the repository:
`classify_trend` and the per-symbol evaluator `load_pair` from main.py,
the ranker truncation from main.py, the instrument filter `get_instruments`,
the kline normalizer `get_klines` and `get_open_interest` from bybit_api.py,
the ticker prefilter from main.py, `append_history` from utils.py, and the
display-symbol round trip between main.py's candidate builder and `add_oi`.

Provider responses, file states and indicator-engine outputs (the modules
indicators.py / telegram_utils.py are external to the embedded sources) are
explicit inputs; machine floats are modelled as rationals.
-/

/-- Trend labels produced by classify_trend (main.py lines 77-84). -/
inductive Trend
  | BULL
  | BEAR
  | NEUTRAL
  deriving DecidableEq, Inhabited

/-- classify_trend (main.py lines 77-84): BULL when the MACD line tail is above
the signal tail with positive histogram tail, BEAR in the mirrored case, and
NEUTRAL otherwise. -/
def classify_trend (macd_last signal_last hist_last : ℚ) : Trend :=
  if macd_last > signal_last ∧ hist_last > 0 then Trend.BULL
  else if macd_last < signal_last ∧ hist_last < 0 then Trend.BEAR
  else Trend.NEUTRAL

/-- A timeframe key from TF_TO_BYBIT (main.py lines 18-29). -/
inductive Tf
  | m5
  | m15
  | m30
  | h1
  | h4
  | h6
  | h12
  | d1
  | w1
  | mo1
  deriving DecidableEq, Inhabited

/-- TF_TO_BYBIT (main.py lines 18-29): the provider interval code per timeframe. -/
def tfToBybit : Tf → String
  | Tf.m5 => "5"
  | Tf.m15 => "15"
  | Tf.m30 => "30"
  | Tf.h1 => "60"
  | Tf.h4 => "240"
  | Tf.h6 => "360"
  | Tf.h12 => "720"
  | Tf.d1 => "D"
  | Tf.w1 => "W"
  | Tf.mo1 => "M"

/-- LONG_TF_CODES (main.py line 31). -/
def LONG_TF_CODES : List String := ["W", "M"]

/-- Membership test `interval in LONG_TF_CODES` used in main.py lines 180 and 183. -/
def isLongTF (interval : String) : Bool := LONG_TF_CODES.contains interval

/-- One candle as returned by get_klines (bybit_api.py lines 131-141); timestamps
are integers, prices rationals, turnover optional (missing/blank maps to none,
modelling the NaN fallback). -/
structure Candle where
  ts : ℤ
  openPx : ℚ
  high : ℚ
  low : ℚ
  close : ℚ
  volume : ℚ
  turnover : Option ℚ
  deriving DecidableEq

/-- The length guard of main.py line 183: a series is too short when a
week/month-class timeframe has fewer than 30 bars, or any other timeframe has
fewer than 50 bars. -/
def tooShort (interval : String) (kl : List Candle) : Bool :=
  (isLongTF interval && decide (kl.length < 30)) ||
    (!isLongTF interval && decide (kl.length < 50))

/-- The per-timeframe minimum bar count implied by the guard of main.py line 183. -/
def minBars (interval : String) : ℕ := if isLongTF interval then 30 else 50

/-- Tail values of the indicator engine for one timeframe (main.py lines 187-195).
The engine itself (indicators.py) is outside the embedded sources, so its last
MACD/signal/histogram/RSI/ATR values are inputs to the evaluator model. -/
structure IndTail where
  macdLast : ℚ
  signalLast : ℚ
  histLast : ℚ
  rsiLast : ℚ
  atrLast : ℚ
  deriving DecidableEq

/-- The kline limit per timeframe, main.py line 180: week/month-class intervals
use min(LIMIT, 120), all others use LIMIT. -/
def limitFor (LIMIT : ℕ) (interval : String) : ℕ :=
  if isLongTF interval then min LIMIT 120 else LIMIT

/-- df close tail used at main.py line 194; the caller guarantees a nonempty
series through the length guard, so the default is never reached there. -/
def lastCloseOf (kl : List Candle) : ℚ := ((kl.getLast?).map Candle.close).getD 0

/-- The division-guarded ATR percent of main.py line 196: atr_abs / last_close
when the last close is truthy (nonzero), 0.0 otherwise. -/
def atrPctOf (atrAbsVal lastClose : ℚ) : ℚ :=
  if lastClose ≠ 0 then atrAbsVal / lastClose else 0

/-- Per-timeframe values retained by load_pair (main.py lines 190-198). -/
structure TfEval where
  trend : Trend
  rsiLast : ℚ
  atrAbs : ℚ
  atrPct : ℚ
  deriving DecidableEq

/-- One iteration of the load_pair timeframe loop (main.py lines 178-198):
fetch the klines, reject on the length guard, otherwise record the trend
and the RSI/ATR tails. `fetch` models api.get_klines for the symbol. -/
def evalTf (LIMIT : ℕ) (fetch : String → ℕ → List Candle) (ind : Tf → IndTail)
    (tf : Tf) : Option TfEval :=
  let interval := tfToBybit tf
  let kl := fetch interval (limitFor LIMIT interval)
  if tooShort interval kl then none
  else
    let t := ind tf
    some { trend := classify_trend t.macdLast t.signalLast t.histLast,
           rsiLast := t.rsiLast,
           atrAbs := t.atrLast,
           atrPct := atrPctOf t.atrLast (lastCloseOf kl) }

/-- The timeframe loop of load_pair: evaluates each configured timeframe in
order, failing the whole symbol (no partial results) when any timeframe fails. -/
def loadPairEvalAll (LIMIT : ℕ) (fetch : String → ℕ → List Candle)
    (ind : Tf → IndTail) : List Tf → Option (List (Tf × TfEval))
  | [] => some []
  | tf :: rest =>
    match evalTf LIMIT fetch ind tf with
    | none => none
    | some e =>
      match loadPairEvalAll LIMIT fetch ind rest with
      | none => none
      | some es => some ((tf, e) :: es)

/-- The payload returned by load_pair on acceptance (main.py lines 206-214). -/
structure Payload where
  common_trend : Trend
  atr_abs_map : List (Tf × ℚ)
  atr_pct_map : List (Tf × ℚ)
  rsi_map : List (Tf × ℚ)
  atr_sort_abs : ℚ
  atr_sort_pct : ℚ
  deriving DecidableEq

/-- Association lookup with default, modelling dict.get(key, default) at
main.py lines 212-213. -/
def dictGetD (m : List (Tf × ℚ)) (k : Tf) (d : ℚ) : ℚ :=
  match m.find? (fun p => decide (p.1 = k)) with
  | some p => p.2
  | none => d

/-- load_pair (main.py lines 171-218) for one symbol: run the timeframe loop,
take the set of distinct trends (set(trends.values()), modelled by dedup),
reject when NEUTRAL occurs or the set is not a singleton, otherwise build the
payload whose common_trend is the single remaining label. -/
def load_pair (LIMIT : ℕ) (TIMEFRAMES : List Tf) (SORT_TF : Tf)
    (fetch : String → ℕ → List Candle) (ind : Tf → IndTail) : Option Payload :=
  match loadPairEvalAll LIMIT fetch ind TIMEFRAMES with
  | none => none
  | some evals =>
    let trends := evals.map (fun p => p.2.trend)
    let uniq := trends.dedup
    if Trend.NEUTRAL ∈ uniq ∨ uniq.length ≠ 1 then none
    else
      let atr_abs := evals.map (fun p => (p.1, p.2.atrAbs))
      let atr_pct := evals.map (fun p => (p.1, p.2.atrPct))
      let rsis := evals.map (fun p => (p.1, p.2.rsiLast))
      some { common_trend := uniq.headI,
             atr_abs_map := atr_abs,
             atr_pct_map := atr_pct,
             rsi_map := rsis,
             atr_sort_abs := dictGetD atr_abs SORT_TF 0,
             atr_sort_pct := dictGetD atr_pct SORT_TF 0 }

/-- The trend classification load_pair computes for a timeframe, as a function
of the indicator tails. -/
def classifyOf (ind : Tf → IndTail) (tf : Tf) : Trend :=
  classify_trend (ind tf).macdLast (ind tf).signalLast (ind tf).histLast

/-- The series load_pair fetches for a timeframe (main.py lines 179-181). -/
def fetchedSeries (LIMIT : ℕ) (fetch : String → ℕ → List Candle) (tf : Tf) :
    List Candle :=
  fetch (tfToBybit tf) (limitFor LIMIT (tfToBybit tf))

/-- A candidate record as built at main.py lines 231-235: display symbol plus
the sort-timeframe ATR values used for ranking and truncation. -/
structure CandidateRec where
  symbol : String
  atr_abs : ℚ
  atr_pct : ℚ
  deriving DecidableEq

/-- The descending-by-atr_pct order used by the ranker (main.py lines 247-248,
sorted with reverse=True on the atr_pct key). -/
def atrPctDesc (a b : CandidateRec) : Prop := b.atr_pct ≤ a.atr_pct

instance : DecidableRel atrPctDesc :=
  fun a b => inferInstanceAs (Decidable (b.atr_pct ≤ a.atr_pct))

instance : IsTotal CandidateRec atrPctDesc :=
  ⟨fun a b => (le_total a.atr_pct b.atr_pct).symm⟩

instance : IsTrans CandidateRec atrPctDesc :=
  ⟨fun _ _ _ hab hbc => le_trans hbc hab⟩

/-- The ranker truncation of main.py lines 247-248: stable sort of a group
descending by atr_pct, then keep the first TOP_N records. -/
def truncateTopN (l : List CandidateRec) (TOP_N : ℕ) : List CandidateRec :=
  (l.insertionSort atrPctDesc).take TOP_N

/-- C3: the Ranker sorts a group descending by the sort-timeframe volatility
percent and truncates to at most TOP_N records; the output has length
min TOP_N (input length), is itself sorted descending, and together with the
dropped suffix is a permutation of the input, with every kept record's atr_pct
at least every dropped record's atr_pct (so it keeps the highest values). -/
theorem ranker_sorts_and_truncates (l : List CandidateRec) (TOP_N : ℕ) :
    (truncateTopN l TOP_N).length = min TOP_N l.length ∧
    List.Sorted atrPctDesc (truncateTopN l TOP_N) ∧
    (truncateTopN l TOP_N ++ (l.insertionSort atrPctDesc).drop TOP_N).Perm l ∧
    ((truncateTopN l TOP_N).all fun x =>
      ((l.insertionSort atrPctDesc).drop TOP_N).all fun y =>
        decide (y.atr_pct ≤ x.atr_pct)) = true := by
  have hperm := List.perm_insertionSort atrPctDesc l
  have hsorted := List.sorted_insertionSort atrPctDesc l
  have hsplit : List.Pairwise atrPctDesc
      ((l.insertionSort atrPctDesc).take TOP_N ++ (l.insertionSort atrPctDesc).drop TOP_N) := by
    rw [List.take_append_drop]
    exact hsorted
  refine ⟨?_, ?_, ?_, ?_⟩
  · rw [truncateTopN, List.length_take, hperm.length_eq]
  · exact List.Pairwise.sublist (List.take_sublist _ _) hsorted
  · rw [truncateTopN, List.take_append_drop]
    exact hperm
  · simp only [List.all_eq_true, decide_eq_true_eq]
    intro x hx y hy
    exact (List.pairwise_append.mp hsplit).2.2 x (by simpa [truncateTopN] using hx) y hy

/-- The per-timeframe evaluation value produced when the length guard passes. -/
def tfEvalVal (LIMIT : ℕ) (fetch : String → ℕ → List Candle) (ind : Tf → IndTail)
    (tf : Tf) : TfEval :=
  { trend := classifyOf ind tf,
    rsiLast := (ind tf).rsiLast,
    atrAbs := (ind tf).atrLast,
    atrPct := atrPctOf (ind tf).atrLast (lastCloseOf (fetchedSeries LIMIT fetch tf)) }

theorem evalTf_of_guard (LIMIT : ℕ) (fetch : String → ℕ → List Candle)
    (ind : Tf → IndTail) (tf : Tf)
    (h : tooShort (tfToBybit tf) (fetchedSeries LIMIT fetch tf) = false) :
    evalTf LIMIT fetch ind tf = some (tfEvalVal LIMIT fetch ind tf) := by
  rw [fetchedSeries] at h
  simp [evalTf, h, tfEvalVal, classifyOf, fetchedSeries]

theorem evalTf_none_of_short (LIMIT : ℕ) (fetch : String → ℕ → List Candle)
    (ind : Tf → IndTail) (tf : Tf)
    (h : tooShort (tfToBybit tf) (fetchedSeries LIMIT fetch tf) = true) :
    evalTf LIMIT fetch ind tf = none := by
  rw [fetchedSeries] at h
  simp [evalTf, h]

theorem loadPairEvalAll_of_guards (LIMIT : ℕ) (fetch : String → ℕ → List Candle)
    (ind : Tf → IndTail) :
    ∀ tfs : List Tf,
      (∀ tf ∈ tfs, tooShort (tfToBybit tf) (fetchedSeries LIMIT fetch tf) = false) →
      loadPairEvalAll LIMIT fetch ind tfs =
        some (tfs.map fun tf => (tf, tfEvalVal LIMIT fetch ind tf)) := by
  intro tfs
  induction tfs with
  | nil => intro _; rfl
  | cons tf rest ih =>
    intro h
    have h1 := h tf (List.mem_cons_self tf rest)
    rw [loadPairEvalAll, evalTf_of_guard LIMIT fetch ind tf h1,
      ih fun t ht => h t (List.mem_cons_of_mem _ ht)]
    rfl

theorem loadPairEvalAll_none_of_short (LIMIT : ℕ) (fetch : String → ℕ → List Candle)
    (ind : Tf → IndTail) :
    ∀ tfs : List Tf,
      (∃ tf ∈ tfs, tooShort (tfToBybit tf) (fetchedSeries LIMIT fetch tf) = true) →
      loadPairEvalAll LIMIT fetch ind tfs = none := by
  intro tfs
  induction tfs with
  | nil =>
    rintro ⟨tf, htf, -⟩
    cases htf
  | cons tf rest ih =>
    rintro ⟨t, ht, hshort⟩
    rcases List.mem_cons.mp ht with rfl | hmem
    · rw [loadPairEvalAll, evalTf_none_of_short LIMIT fetch ind t hshort]
    · rw [loadPairEvalAll]
      cases hE : evalTf LIMIT fetch ind tf with
      | none => rfl
      | some e => rw [ih ⟨t, hmem, hshort⟩]

theorem dedup_eq_singleton_of_all_eq {α : Type} [DecidableEq α] {l : List α} {t : α}
    (hne : l ≠ []) (h : ∀ x ∈ l, x = t) : l.dedup = [t] := by
  have hmem : t ∈ l.dedup := by
    rw [List.mem_dedup]
    cases l with
    | nil => exact absurd rfl hne
    | cons a as =>
      have ha := h a (List.mem_cons_self a as)
      rw [← ha]
      exact List.mem_cons_self a as
  have hall : ∀ x ∈ l.dedup, x = t := fun x hx => h x (List.mem_dedup.mp hx)
  have hnd := l.nodup_dedup
  cases hd : l.dedup with
  | nil => rw [hd] at hmem; cases hmem
  | cons b bs =>
    have hb : b = t := hall b (by rw [hd]; exact List.mem_cons_self b bs)
    cases bs with
    | nil => rw [hb]
    | cons c cs =>
      have hc : c = t := hall c (by rw [hd]; simp)
      rw [hd] at hnd
      rcases List.nodup_cons.mp hnd with ⟨hnotmem, -⟩
      exact absurd (show b ∈ c :: cs by rw [hb, ← hc]; simp) hnotmem

theorem tooShort_iff (interval : String) (kl : List Candle) :
    tooShort interval kl = true ↔ kl.length < minBars interval := by
  unfold tooShort minBars
  cases h : isLongTF interval <;> simp

/-- C2: the Per-Symbol Evaluator rejects a symbol outright when any configured
timeframe's candle series is shorter than its minimum (30 bars for
week/month-class intervals, 50 otherwise), and the length guard is exactly the
comparison against that minimum (so a weekly series of length 25 fails it and
one of length 35 passes it). -/
theorem load_pair_rejects_short_series (LIMIT : ℕ) (TIMEFRAMES : List Tf)
    (SORT_TF : Tf) (fetch : String → ℕ → List Candle) (ind : Tf → IndTail)
    (h : ∃ tf ∈ TIMEFRAMES, (fetchedSeries LIMIT fetch tf).length < minBars (tfToBybit tf)) :
    load_pair LIMIT TIMEFRAMES SORT_TF fetch ind = none ∧
    minBars "W" = 30 ∧ minBars "M" = 30 ∧ minBars "D" = 50 ∧
    ∀ interval kl, tooShort interval kl = true ↔ kl.length < minBars interval := by
  refine ⟨?_, by decide, by decide, by decide, tooShort_iff⟩
  obtain ⟨tf, htf, hlen⟩ := h
  have hshort : tooShort (tfToBybit tf) (fetchedSeries LIMIT fetch tf) = true :=
    (tooShort_iff _ _).mpr hlen
  rw [load_pair, loadPairEvalAll_none_of_short LIMIT fetch ind TIMEFRAMES ⟨tf, htf, hshort⟩]

/-- A plain candle used to build concrete evaluation scenarios. -/
def sampleCandle : Candle :=
  { ts := 0, openPx := 1, high := 1, low := 1, close := 1, volume := 1, turnover := none }

/-- A concrete fetch in which the weekly series has only 25 bars. -/
def c2fetch : String → ℕ → List Candle := fun interval _ =>
  if interval = "W" then List.replicate 25 sampleCandle else List.replicate 60 sampleCandle

/-- A concrete indicator oracle. -/
def c2ind : Tf → IndTail := fun _ =>
  { macdLast := 2, signalLast := 1, histLast := 1, rsiLast := 50, atrLast := 3 }

theorem load_pair_rejects_short_series_witness :
    ((fetchedSeries 200 c2fetch Tf.w1).length < minBars (tfToBybit Tf.w1)) ∧
    load_pair 200 [Tf.w1] Tf.w1 c2fetch c2ind = none ∧
    tooShort "W" (List.replicate 35 sampleCandle) = false := by
  have h : ∃ tf ∈ [Tf.w1], (fetchedSeries 200 c2fetch tf).length < minBars (tfToBybit tf) :=
    ⟨Tf.w1, by simp, by decide⟩
  have main := load_pair_rejects_short_series 200 [Tf.w1] Tf.w1 c2fetch c2ind h
  exact ⟨by decide, main.1, by decide⟩

/-- C1: with every configured timeframe passing the length guard and at least
one timeframe configured, load_pair accepts a symbol exactly when all
per-timeframe trend classifications agree on a non-NEUTRAL label, and in that
case the payload's common_trend is that shared label; any NEUTRAL or any
disagreement yields a null result. -/
theorem load_pair_accept_iff (LIMIT : ℕ) (TIMEFRAMES : List Tf) (SORT_TF : Tf)
    (fetch : String → ℕ → List Candle) (ind : Tf → IndTail)
    (hne : TIMEFRAMES ≠ [])
    (hguards : ∀ tf ∈ TIMEFRAMES,
      tooShort (tfToBybit tf) (fetchedSeries LIMIT fetch tf) = false) :
    ((∃ p, load_pair LIMIT TIMEFRAMES SORT_TF fetch ind = some p) ↔
      ∃ t, t ≠ Trend.NEUTRAL ∧ ∀ tf ∈ TIMEFRAMES, classifyOf ind tf = t) ∧
    ∀ p, load_pair LIMIT TIMEFRAMES SORT_TF fetch ind = some p →
      p.common_trend ≠ Trend.NEUTRAL ∧
        ∀ tf ∈ TIMEFRAMES, classifyOf ind tf = p.common_trend := by
  have hEv := loadPairEvalAll_of_guards LIMIT fetch ind TIMEFRAMES hguards
  have hTrends : ((TIMEFRAMES.map fun tf => (tf, tfEvalVal LIMIT fetch ind tf)).map
      fun p => p.2.trend) = TIMEFRAMES.map (classifyOf ind) := by
    rw [List.map_map]
    rfl
  have hLP : load_pair LIMIT TIMEFRAMES SORT_TF fetch ind =
      (if Trend.NEUTRAL ∈ (TIMEFRAMES.map (classifyOf ind)).dedup ∨
          (TIMEFRAMES.map (classifyOf ind)).dedup.length ≠ 1 then none
       else some
        { common_trend := (TIMEFRAMES.map (classifyOf ind)).dedup.headI,
          atr_abs_map := (TIMEFRAMES.map fun tf => (tf, tfEvalVal LIMIT fetch ind tf)).map
            fun p => (p.1, p.2.atrAbs),
          atr_pct_map := (TIMEFRAMES.map fun tf => (tf, tfEvalVal LIMIT fetch ind tf)).map
            fun p => (p.1, p.2.atrPct),
          rsi_map := (TIMEFRAMES.map fun tf => (tf, tfEvalVal LIMIT fetch ind tf)).map
            fun p => (p.1, p.2.rsiLast),
          atr_sort_abs := dictGetD ((TIMEFRAMES.map fun tf => (tf, tfEvalVal LIMIT fetch ind tf)).map
            fun p => (p.1, p.2.atrAbs)) SORT_TF 0,
          atr_sort_pct := dictGetD ((TIMEFRAMES.map fun tf => (tf, tfEvalVal LIMIT fetch ind tf)).map
            fun p => (p.1, p.2.atrPct)) SORT_TF 0 }) := by
    unfold load_pair
    rw [hEv]
    simp only [hTrends]
  have hTne : TIMEFRAMES.map (classifyOf ind) ≠ [] := by
    intro hmap
    exact hne (List.map_eq_nil_iff.mp hmap)
  by_cases hC : Trend.NEUTRAL ∈ (TIMEFRAMES.map (classifyOf ind)).dedup ∨
      (TIMEFRAMES.map (classifyOf ind)).dedup.length ≠ 1
  · rw [if_pos hC] at hLP
    constructor
    · constructor
      · rintro ⟨p, hp⟩
        rw [hLP] at hp
        cases hp
      · rintro ⟨t, htN, hall⟩
        exfalso
        have hallT : ∀ x ∈ TIMEFRAMES.map (classifyOf ind), x = t := by
          intro x hx
          obtain ⟨tf, htf, rfl⟩ := List.mem_map.mp hx
          exact hall tf htf
        have hded := dedup_eq_singleton_of_all_eq hTne hallT
        rcases hC with hC | hC
        · rw [hded] at hC
          rcases List.mem_singleton.mp hC with rfl
          exact htN rfl
        · rw [hded] at hC
          exact hC rfl
    · intro p hp
      rw [hLP] at hp
      cases hp
  · rw [if_neg hC] at hLP
    push_neg at hC
    obtain ⟨hN, hL⟩ := hC
    obtain ⟨t, ht⟩ := List.length_eq_one.mp hL
    have hAll : ∀ tf ∈ TIMEFRAMES, classifyOf ind tf = t := by
      intro tf htf
      have hx : classifyOf ind tf ∈ (TIMEFRAMES.map (classifyOf ind)).dedup :=
        List.mem_dedup.mpr (List.mem_map_of_mem (classifyOf ind) htf)
      rw [ht] at hx
      exact List.mem_singleton.mp hx
    have htN : t ≠ Trend.NEUTRAL := by
      intro hteq
      apply hN
      rw [ht, hteq]
      simp
    have hHead : (TIMEFRAMES.map (classifyOf ind)).dedup.headI = t := by
      rw [ht]
      rfl
    constructor
    · constructor
      · intro _
        exact ⟨t, htN, hAll⟩
      · intro _
        exact ⟨_, hLP⟩
    · intro p hp
      rw [hLP] at hp
      have hpt : p.common_trend = t := by
        cases hp
        exact hHead
      rw [hpt]
      exact ⟨htN, hAll⟩

/-- A concrete fetch giving 60 bars on every timeframe. -/
def c1fetch : String → ℕ → List Candle := fun _ _ => List.replicate 60 sampleCandle

/-- A concrete indicator oracle classifying every timeframe BULL. -/
def c1ind : Tf → IndTail := fun _ =>
  { macdLast := 2, signalLast := 1, histLast := 1, rsiLast := 50, atrLast := 3 }

theorem load_pair_accept_iff_witness :
    (([Tf.h4, Tf.d1] : List Tf) ≠ [] ∧
      ∀ tf ∈ ([Tf.h4, Tf.d1] : List Tf),
        tooShort (tfToBybit tf) (fetchedSeries 200 c1fetch tf) = false) ∧
    ∃ p, load_pair 200 [Tf.h4, Tf.d1] Tf.h4 c1fetch c1ind = some p ∧
      p.common_trend = Trend.BULL := by
  have hne : ([Tf.h4, Tf.d1] : List Tf) ≠ [] := by decide
  have hg : ∀ tf ∈ ([Tf.h4, Tf.d1] : List Tf),
      tooShort (tfToBybit tf) (fetchedSeries 200 c1fetch tf) = false := by decide
  have main := load_pair_accept_iff 200 [Tf.h4, Tf.d1] Tf.h4 c1fetch c1ind hne hg
  have hex : ∃ t, t ≠ Trend.NEUTRAL ∧
      ∀ tf ∈ ([Tf.h4, Tf.d1] : List Tf), classifyOf c1ind tf = t :=
    ⟨Trend.BULL, by decide, by decide⟩
  obtain ⟨p, hp⟩ := main.1.mpr hex
  have h2 := main.2 p hp
  have hBull : p.common_trend = Trend.BULL := by
    have hcls := h2.2 Tf.h4 (by simp)
    have hc : classifyOf c1ind Tf.h4 = Trend.BULL := by decide
    rw [hc] at hcls
    exact hcls.symm
  exact ⟨⟨hne, hg⟩, p, hp, hBull⟩

/-- C10: inside the evaluator, the ATR-percent derivation is division-guarded:
whenever the fetched series' last close is zero, the recorded atr_pct is 0
rather than the result of a division. -/
theorem evaluator_division_guard (LIMIT : ℕ) (fetch : String → ℕ → List Candle)
    (ind : Tf → IndTail) (tf : Tf) (e : TfEval)
    (hsome : evalTf LIMIT fetch ind tf = some e)
    (hzero : lastCloseOf (fetchedSeries LIMIT fetch tf) = 0) :
    e.atrPct = 0 := by
  rw [fetchedSeries] at hzero
  unfold evalTf at hsome
  by_cases hs : tooShort (tfToBybit tf) (fetch (tfToBybit tf) (limitFor LIMIT (tfToBybit tf))) = true
  · simp only [hs] at hsome
    cases hsome
  · rw [Bool.not_eq_true] at hs
    simp only [hs] at hsome
    simp only [Bool.false_eq_true, if_false] at hsome
    cases hsome
    simp [atrPctOf, hzero]

/-- A candle whose close is zero. -/
def zeroCloseCandle : Candle :=
  { ts := 0, openPx := 1, high := 1, low := 1, close := 0, volume := 1, turnover := none }

/-- A concrete fetch whose series ends on a zero close. -/
def c10fetch : String → ℕ → List Candle := fun _ _ => List.replicate 60 zeroCloseCandle

/-- A concrete indicator oracle for the division-guard witness. -/
def c10ind : Tf → IndTail := fun _ =>
  { macdLast := 2, signalLast := 1, histLast := 1, rsiLast := 50, atrLast := 3 }

/-- The evaluation value obtained at the division-guard witness input. -/
def c10eval : TfEval :=
  { trend := Trend.BULL, rsiLast := 50, atrAbs := 3, atrPct := 0 }

theorem evaluator_division_guard_witness :
    evalTf 200 c10fetch c10ind Tf.h4 = some c10eval ∧
    lastCloseOf (fetchedSeries 200 c10fetch Tf.h4) = 0 ∧
    c10eval.atrPct = 0 := by
  have h1 : evalTf 200 c10fetch c10ind Tf.h4 = some c10eval := by decide
  have h2 : lastCloseOf (fetchedSeries 200 c10fetch Tf.h4) = 0 := by decide
  exact ⟨h1, h2, evaluator_division_guard 200 c10fetch c10ind Tf.h4 c10eval h1 h2⟩

/-- Checks whether the first list is an initial segment of the second (the
building block for Python's substring and endswith tests). -/
def leadsWith : List Char → List Char → Bool
  | [], _ => true
  | _ :: _, [] => false
  | a :: as, b :: bs => a == b && leadsWith as bs

/-- Python's `needle in hay` substring test over character lists. -/
def containsSeq (needle : List Char) : List Char → Bool
  | [] => leadsWith needle []
  | c :: rest => leadsWith needle (c :: rest) || containsSeq needle rest

/-- Python's `hay.endswith(needle)` over character lists. -/
def closesWith (needle hay : List Char) : Bool :=
  leadsWith needle.reverse hay.reverse

/-- Python's `needle in hay` on strings. -/
def strContains (needle hay : String) : Bool := containsSeq needle.toList hay.toList

/-- Python's `hay.endswith(needle)` on strings. -/
def strEndsWith (needle hay : String) : Bool := closesWith needle.toList hay.toList

/-- Python's `a or b` for optional strings under truthiness: a missing or empty
string falls through to the alternative (bybit_api.py lines 77-78). -/
def pyOrStr (a : Option String) (b : String) : String :=
  match a with
  | some s => if s = "" then b else s
  | none => b

/-- One entry of the provider's instruments-info list as read by
get_instruments (bybit_api.py lines 74-79): status and contractType are read
with an empty-string default, symbol likewise, while the quote/settle coins
keep their raw optional form because of the or-chains. -/
structure InstrumentEntry where
  status : String
  symbol : String
  quoteCoin : Option String
  quoteSymbol : Option String
  settleCoin : Option String
  contractType : String
  deriving DecidableEq

/-- Python str.lower, written over the character data (String.toLower maps
Char.toLower across the characters; this form computes in the kernel). -/
def strLower (s : String) : String := String.mk (s.toList.map Char.toLower)

/-- Python str.upper, written over the character data. -/
def strUpper (s : String) : String := String.mk (s.toList.map Char.toUpper)

/-- The resolved quote currency (bybit_api.py line 77). -/
def instrumentQuote (it : InstrumentEntry) : String :=
  strUpper (pyOrStr it.quoteCoin (pyOrStr it.quoteSymbol ""))

/-- The resolved settle currency (bybit_api.py line 78). -/
def instrumentSettle (it : InstrumentEntry) : String :=
  strUpper (pyOrStr it.settleCoin "")

/-- is_usdt (bybit_api.py line 81). -/
def isUsdtInstrument (it : InstrumentEntry) : Bool :=
  strContains "USDT" (instrumentQuote it) || strContains "USDT" (instrumentSettle it) ||
    strEndsWith "USDT" it.symbol

/-- is_trading (bybit_api.py line 82): the lowered status contains "trading". -/
def isTradingInstrument (it : InstrumentEntry) : Bool :=
  strContains "trading" (strLower it.status)

/-- is_linear_perp (bybit_api.py lines 83-85): defaults to true, and for the
"linear" category with a nonempty (lowered) contractType requires it to
contain "perpetual". -/
def isLinearPerp (category : String) (it : InstrumentEntry) : Bool :=
  if category = "linear" ∧ strLower it.contractType ≠ "" then
    strContains "perpetual" (strLower it.contractType)
  else true

/-- The per-entry retention predicate of bybit_api.py line 87. -/
def keepInstrument (category : String) (it : InstrumentEntry) : Bool :=
  isUsdtInstrument it && isTradingInstrument it && isLinearPerp category it

/-- get_instruments (bybit_api.py lines 56-97) over the pages the cursor walk
yields: each page's entries are filtered by the per-entry predicate and
appended to the accumulated output. -/
def get_instruments (category : String) (pages : List (List InstrumentEntry)) :
    List InstrumentEntry :=
  pages.foldl (fun out page => out ++ page.filter (keepInstrument category)) []

theorem get_instruments_eq_filter (category : String)
    (pages : List (List InstrumentEntry)) :
    get_instruments category pages = pages.flatten.filter (keepInstrument category) := by
  have hgen : ∀ (ps : List (List InstrumentEntry)) (acc : List InstrumentEntry),
      ps.foldl (fun out page => out ++ page.filter (keepInstrument category)) acc =
        acc ++ ps.flatten.filter (keepInstrument category) := by
    intro ps
    induction ps with
    | nil => intro acc; simp
    | cons p rest ih =>
      intro acc
      simp [List.foldl_cons, ih, List.filter_append, List.append_assoc]
  rw [get_instruments, hgen]
  simp

/-- C4 amended: every instrument retained by get_instruments satisfies the
per-entry predicates the code actually applies (trading-substring status,
USDT in the resolved quote or settle currency or as the symbol suffix, and
perpetual contract type when the category is "linear" and the contractType is
nonempty), and the filter is a pure per-entry predicate that is idempotent:
re-filtering the output changes nothing. -/
theorem get_instruments_invariant (category : String)
    (pages : List (List InstrumentEntry)) :
    ((get_instruments category pages).all fun it =>
      isTradingInstrument it && isUsdtInstrument it && isLinearPerp category it) = true ∧
    (get_instruments category pages).filter (keepInstrument category) =
      get_instruments category pages := by
  constructor
  · rw [get_instruments_eq_filter]
    simp only [List.all_eq_true, List.mem_filter]
    rintro it ⟨-, hkeep⟩
    rw [keepInstrument, Bool.and_eq_true, Bool.and_eq_true] at hkeep
    rcases hkeep with ⟨⟨husdt, htrading⟩, hperp⟩
    simp [husdt, htrading, hperp]
  · rw [get_instruments_eq_filter, List.filter_filter]
    congr 1
    funext it
    rw [Bool.and_self]

/-- An instrument entry with USDC quote and settle currencies, a symbol that
merely ends in USDT, a trading status, and an empty contract type. -/
def c4BadEntry : InstrumentEntry :=
  { status := "Trading", symbol := "XUSDT", quoteCoin := some "USDC",
    quoteSymbol := none, settleCoin := some "USDC", contractType := "" }

/-- C4 counterexample: get_instruments retains this entry although its quote
and settle currencies are not USDT and its contract type is not perpetual; the
symbol-suffix disjunct of is_usdt and the empty-contractType bypass of
is_linear_perp make the implemented filter weaker than the claimed invariant. -/
theorem get_instruments_retains_non_usdt_quote :
    c4BadEntry ∈ get_instruments "linear" [[c4BadEntry]] ∧
    strContains "USDT" (instrumentQuote c4BadEntry) = false ∧
    strContains "USDT" (instrumentSettle c4BadEntry) = false ∧
    strContains "perpetual" (strLower c4BadEntry.contractType) = false := by
  refine ⟨by decide, by decide, by decide, by decide⟩

/-- One raw kline row from the provider (bybit_api.py lines 128-140): index 0
parses to an integer timestamp, indexes 1-5 to prices/volume, and the optional
index 6 to turnover (missing or blank becomes the NaN fallback, modelled none). -/
structure RawKline where
  ts : ℤ
  o : ℚ
  h : ℚ
  l : ℚ
  c : ℚ
  v : ℚ
  turn : Option ℚ
  deriving DecidableEq

/-- The ascending-timestamp key order used at bybit_api.py line 129. -/
def klineTsLe (a b : RawKline) : Prop := a.ts ≤ b.ts

instance : DecidableRel klineTsLe :=
  fun a b => inferInstanceAs (Decidable (a.ts ≤ b.ts))

instance : IsTotal RawKline klineTsLe := ⟨fun a b => le_total a.ts b.ts⟩

instance : IsTrans RawKline klineTsLe := ⟨fun _ _ _ hab hbc => le_trans hab hbc⟩

/-- get_klines (bybit_api.py lines 114-141): sort the provider rows by integer
timestamp, then map each row to a Candle record. -/
def get_klines (rows : List RawKline) : List Candle :=
  (rows.insertionSort klineTsLe).map fun x =>
    { ts := x.ts, openPx := x.o, high := x.h, low := x.l, close := x.c,
      volume := x.v, turnover := x.turn }

/-- C5 counterexample: with two provider rows sharing timestamp 5, the
get_klines output timestamps are [5, 5], which is not strictly ascending, so
the strict-ascending claim fails on responses with duplicate timestamps. -/
theorem get_klines_not_strictly_ascending :
    ¬ List.Sorted (fun a b : ℤ => a < b)
      ((get_klines [{ ts := 5, o := 1, h := 1, l := 1, c := 1, v := 1, turn := none },
                    { ts := 5, o := 2, h := 2, l := 2, c := 2, v := 2, turn := none }]).map
        Candle.ts) := by
  intro h
  have h5 : ((get_klines [{ ts := 5, o := 1, h := 1, l := 1, c := 1, v := 1, turn := none },
      { ts := 5, o := 2, h := 2, l := 2, c := 2, v := 2, turn := none }]).map Candle.ts) =
      [5, 5] := by decide
  rw [h5] at h
  rcases List.pairwise_cons.mp h with ⟨h55, -⟩
  exact absurd (h55 5 (List.mem_singleton.mpr rfl)) (lt_irrefl 5)

/-- C5 amended: the get_klines output is sorted ascending (non-strictly) by
timestamp for every provider order, and strictly ascending whenever the
provider rows carry pairwise distinct timestamps. -/
theorem get_klines_sorted (rows : List RawKline) :
    List.Sorted (fun a b : ℤ => a ≤ b) ((get_klines rows).map Candle.ts) ∧
    (rows.Pairwise (fun a b => a.ts ≠ b.ts) →
      List.Sorted (fun a b : ℤ => a < b) ((get_klines rows).map Candle.ts)) := by
  have hsorted := List.sorted_insertionSort klineTsLe rows
  have hperm := List.perm_insertionSort klineTsLe rows
  have hmap : (get_klines rows).map Candle.ts =
      (rows.insertionSort klineTsLe).map RawKline.ts := by
    rw [get_klines, List.map_map]
    rfl
  constructor
  · rw [hmap]
    exact hsorted.map RawKline.ts fun a b hab => hab
  · intro hdist
    have hdist' : (rows.insertionSort klineTsLe).Pairwise fun a b => a.ts ≠ b.ts :=
      (hperm.pairwise_iff fun hab => Ne.symm hab).mpr hdist
    have hboth := hsorted.and hdist'
    rw [hmap]
    exact hboth.map RawKline.ts fun a b hab => lt_of_le_of_ne hab.1 hab.2

theorem get_klines_sorted_witness :
    ([({ ts := 7, o := 1, h := 1, l := 1, c := 1, v := 1, turn := none } : RawKline),
       { ts := 3, o := 2, h := 2, l := 2, c := 2, v := 2, turn := none }].Pairwise
        fun a b => a.ts ≠ b.ts) ∧
    List.Sorted (fun a b : ℤ => a < b)
      ((get_klines [{ ts := 7, o := 1, h := 1, l := 1, c := 1, v := 1, turn := none },
                    { ts := 3, o := 2, h := 2, l := 2, c := 2, v := 2, turn := none }]).map
        Candle.ts) := by
  have hd : ([({ ts := 7, o := 1, h := 1, l := 1, c := 1, v := 1, turn := none } : RawKline),
      { ts := 3, o := 2, h := 2, l := 2, c := 2, v := 2, turn := none }].Pairwise
        fun a b => a.ts ≠ b.ts) := by
    simp
  exact ⟨hd, (get_klines_sorted _).2 hd⟩

/-- One entry of the open-interest result list; openInterest is none when the
key is missing or its value does not parse as a float (bybit_api.py line 162). -/
structure OiEntry where
  openInterest : Option ℚ
  deriving DecidableEq

/-- A provider response to the open-interest request, as seen through _check
(bybit_api.py lines 39-46): HTTP status, provider retCode, and the result list. -/
structure OiResponse where
  httpStatus : ℕ
  retCode : ℤ
  list : List OiEntry
  deriving DecidableEq

/-- get_open_interest (bybit_api.py lines 144-164) combined with _check: a
non-200 HTTP status or a nonzero retCode raises (modelled as an error value,
which the tenacity retry decorator re-raises after its attempts); an empty
result list or an unparsable last openInterest value returns None; otherwise
the parsed last value is returned. -/
def get_open_interest (resp : OiResponse) : Except String (Option ℚ) :=
  if resp.httpStatus ≠ 200 then Except.error "HTTP"
  else if resp.retCode ≠ 0 then Except.error "retCode"
  else
    match resp.list.getLast? with
    | none => Except.ok none
    | some entry => Except.ok entry.openInterest

/-- Python `x or 0.0` on an optional float: None and 0.0 both give 0.0. -/
def pyOrZero (v : Option ℚ) : ℚ :=
  match v with
  | none => 0
  | some x => if x = 0 then 0 else x

/-- The enrichment value computed by add_oi (main.py lines 252-259): any raised
error is caught and replaced by 0.0, and a None result also becomes 0.0. -/
def add_oi_value (resp : OiResponse) : ℚ :=
  match get_open_interest resp with
  | Except.error _ => 0
  | Except.ok v => pyOrZero v

/-- C6 counterexample: on an HTTP 500 response, get_open_interest raises
(returns an error value) instead of returning the unavailable value None, so
the Gateway operation itself is not best-effort on HTTP/provider failures. -/
theorem get_open_interest_propagates_http_error :
    get_open_interest { httpStatus := 500, retCode := 0, list := [] } =
      Except.error "HTTP" ∧
    get_open_interest { httpStatus := 500, retCode := 0, list := [] } ≠
      Except.ok none := by
  constructor
  · rfl
  · intro h
    cases h

/-- C6 amended: get_open_interest returns None exactly for the data-shaped
failures (empty result list, missing or unparsable last value) once the
response is otherwise successful; a non-200 HTTP status or nonzero retCode
instead produces a raised error, and the enrichment caller add_oi converts any
such raised error into the value 0.0, so no failure propagates past the
enricher. -/
theorem get_open_interest_amended (resp : OiResponse) :
    (resp.httpStatus = 200 → resp.retCode = 0 → resp.list = [] →
      get_open_interest resp = Except.ok none) ∧
    (resp.httpStatus = 200 → resp.retCode = 0 →
      ∀ entry, resp.list.getLast? = some entry → entry.openInterest = none →
        get_open_interest resp = Except.ok none) ∧
    (resp.httpStatus ≠ 200 ∨ resp.retCode ≠ 0 →
      ∃ msg, get_open_interest resp = Except.error msg) ∧
    (∀ msg, get_open_interest resp = Except.error msg → add_oi_value resp = 0) := by
  refine ⟨?_, ?_, ?_, ?_⟩
  · intro h200 hret hnil
    simp [get_open_interest, h200, hret, hnil]
  · intro h200 hret entry hlast hnone
    simp [get_open_interest, h200, hret, hlast, hnone]
  · intro hbad
    rcases hbad with hbad | hbad
    · exact ⟨"HTTP", by simp [get_open_interest, hbad]⟩
    · by_cases h200 : resp.httpStatus = 200
      · exact ⟨"retCode", by simp [get_open_interest, h200, hbad]⟩
      · exact ⟨"HTTP", by simp [get_open_interest, h200]⟩
  · intro msg herr
    rw [add_oi_value, herr]

/-- A successful response with an empty result list. -/
def oiRespEmpty : OiResponse := { httpStatus := 200, retCode := 0, list := [] }

/-- A successful response whose last entry has no parsable openInterest. -/
def oiRespUnparsable : OiResponse :=
  { httpStatus := 200, retCode := 0, list := [{ openInterest := none }] }

/-- A response with HTTP status 500. -/
def oiRespHttp500 : OiResponse := { httpStatus := 500, retCode := 0, list := [] }

theorem get_open_interest_amended_witness :
    get_open_interest oiRespEmpty = Except.ok none ∧
    get_open_interest oiRespUnparsable = Except.ok none ∧
    (∃ msg, get_open_interest oiRespHttp500 = Except.error msg) ∧
    add_oi_value oiRespHttp500 = 0 := by
  have h1 := (get_open_interest_amended oiRespEmpty).1 rfl rfl rfl
  have h2 := (get_open_interest_amended oiRespUnparsable).2.1 rfl rfl
    { openInterest := none } rfl rfl
  obtain ⟨msg, hmsg⟩ := (get_open_interest_amended oiRespHttp500).2.2.1 (Or.inl (by decide))
  have h4 := (get_open_interest_amended oiRespHttp500).2.2.2 msg hmsg
  exact ⟨h1, h2, ⟨msg, hmsg⟩, h4⟩

/-- The state of the history-log file as seen by append_history
(utils.py lines 19-33): absent, present but unreadable or unparsable, or a
parsed JSON array of records. -/
inductive HistoryFile (α : Type)
  | absent
  | corrupt
  | valid (arr : List α)

/-- The read-and-parse step of utils.py lines 26-30: a corrupt or unreadable
file yields no array (the caught exception), a valid file yields its array. -/
def readHistoryArr {α : Type} : HistoryFile α → Option (List α)
  | HistoryFile.corrupt => none
  | HistoryFile.valid arr => some arr
  | HistoryFile.absent => none

/-- append_history (utils.py lines 19-33), returning the array written back:
a missing file gets a fresh one-record array; otherwise the parsed array (or
the empty array when reading/parsing failed) is extended with the new record.
The function is total, so no log-corruption error reaches the caller. -/
def append_history {α : Type} (f : HistoryFile α) (record : α) : List α :=
  match f with
  | HistoryFile.absent => [record]
  | f => ((readHistoryArr f).getD []) ++ [record]

/-- C8: appending a cycle record to a corrupt or unreadable history log treats
the log as empty and writes a fresh array holding exactly the one new record. -/
theorem append_history_corrupt {α : Type} (record : α) (f : HistoryFile α)
    (h : f = HistoryFile.corrupt) : append_history f record = [record] := by
  rw [h]
  rfl

theorem append_history_corrupt_witness :
    append_history (HistoryFile.corrupt : HistoryFile ℕ) 7 = [7] :=
  append_history_corrupt 7 HistoryFile.corrupt rfl

/-- One raw ticker from the provider as read by the prefilter (main.py lines
150-162). The price fields are doubly optional: the outer layer is Python
truthiness of the raw value (none models a missing/empty value that falls
through an or-chain), the inner layer is float-parse success (none models a
truthy but unparsable value, whose float() call skips the whole row). -/
structure TickerEntry where
  symbol : Option String
  highPrice24h : Option (Option ℚ)
  highPrice : Option (Option ℚ)
  lowPrice24h : Option (Option ℚ)
  lowPrice : Option (Option ℚ)
  lastPrice : Option (Option ℚ)
  deriving DecidableEq

/-- Python `a or b` on raw field values: a truthy left operand wins. -/
def rawOr (a b : Option (Option ℚ)) : Option (Option ℚ) :=
  match a with
  | none => b
  | some v => some v

/-- Models float(a or b or 0) from main.py lines 154-155: resolve the or-chain
(falling back to the literal 0), then parse; none means float() raised. -/
def pyFloatOr (a b : Option (Option ℚ)) : Option ℚ :=
  match rawOr a (rawOr b (some (some 0))) with
  | some v => v
  | none => some 0

/-- The body of the prefilter row loop for one tick_map item (main.py lines
152-162): parse high/low/last (any parse failure skips the row, modelling the
except/continue), skip non-positive values, otherwise emit the symbol with its
24h range percent. -/
def rowOf (sym : String) (t : TickerEntry) : Option (String × ℚ) :=
  match pyFloatOr t.highPrice24h t.highPrice with
  | none => none
  | some high =>
    match pyFloatOr t.lowPrice24h t.lowPrice with
    | none => none
    | some low =>
      match pyFloatOr t.lastPrice none with
      | none => none
      | some last =>
        if last ≤ 0 ∨ high ≤ 0 ∨ low ≤ 0 then none
        else some (sym, (high - low) / last)

/-- Insertion into a Python dict modelled as an association list: an existing
key is overwritten in place, a new key is appended (insertion order kept). -/
def dictInsert (m : List (String × TickerEntry)) (k : String) (v : TickerEntry) :
    List (String × TickerEntry) :=
  if m.any fun p => p.1 == k then m.map fun p => if p.1 == k then (k, v) else p
  else m ++ [(k, v)]

/-- tick_map (main.py line 150): the dict comprehension over tickers whose
symbol lies in the instrument universe. -/
def tickMap (tickers : List TickerEntry) (symbols : List String) :
    List (String × TickerEntry) :=
  tickers.foldl
    (fun m t =>
      match t.symbol with
      | none => m
      | some s => if symbols.contains s then dictInsert m s t else m)
    []

/-- The row-building loop of main.py lines 151-162 over the tick_map items. -/
def buildRows : List (String × TickerEntry) → List (String × ℚ)
  | [] => []
  | p :: rest =>
    match rowOf p.1 p.2 with
    | none => buildRows rest
    | some r => r :: buildRows rest

/-- The descending range24h_pct order of main.py line 163. -/
def rangeDesc (a b : String × ℚ) : Prop := b.2 ≤ a.2

instance : DecidableRel rangeDesc :=
  fun a b => inferInstanceAs (Decidable (b.2 ≤ a.2))

instance : IsTotal (String × ℚ) rangeDesc := ⟨fun a b => (le_total a.2 b.2).symm⟩

instance : IsTrans (String × ℚ) rangeDesc := ⟨fun _ _ _ hab hbc => le_trans hbc hab⟩

/-- The ticker prefilter of main.py lines 148-165: build the per-symbol
range24h_pct rows from the tick_map, sort them descending, and emit the
symbols of the first max(TOP_N * PREFILTER_MULTIPLIER, TOP_N) rows. -/
def prefilter (tickers : List TickerEntry) (symbols : List String)
    (TOP_N PREFILTER_MULTIPLIER : ℕ) : List String :=
  let rows := buildRows (tickMap tickers symbols)
  let sortedRows := rows.insertionSort rangeDesc
  let pre_count := max (TOP_N * PREFILTER_MULTIPLIER) TOP_N
  (sortedRows.take pre_count).map Prod.fst

theorem buildRows_eq_filterMap (m : List (String × TickerEntry)) :
    buildRows m = m.filterMap fun p => rowOf p.1 p.2 := by
  induction m with
  | nil => rfl
  | cons p rest ih =>
    rw [buildRows, List.filterMap_cons]
    cases h : rowOf p.1 p.2 with
    | none => rw [ih]
    | some r => rw [ih]

/-- C7: the Prefilter is deterministic (a second run over the same snapshot
gives the same ordered symbol list), it computes exactly the symbols of the
first max(TOP_N * multiplier, TOP_N) rows of the descending range24h_pct sort
of the per-symbol rows (with non-positive or unparsable entries skipped by
rowOf), and its output length is bounded by that count. -/
theorem prefilter_deterministic (tickers : List TickerEntry)
    (symbols : List String) (TOP_N PREFILTER_MULTIPLIER : ℕ) :
    prefilter tickers symbols TOP_N PREFILTER_MULTIPLIER =
      prefilter tickers symbols TOP_N PREFILTER_MULTIPLIER ∧
    prefilter tickers symbols TOP_N PREFILTER_MULTIPLIER =
      ((((tickMap tickers symbols).filterMap fun p => rowOf p.1 p.2).insertionSort
          rangeDesc).take (max (TOP_N * PREFILTER_MULTIPLIER) TOP_N)).map Prod.fst ∧
    (prefilter tickers symbols TOP_N PREFILTER_MULTIPLIER).length ≤
      max (TOP_N * PREFILTER_MULTIPLIER) TOP_N := by
  refine ⟨rfl, ?_, ?_⟩
  · rw [prefilter, buildRows_eq_filterMap]
  · rw [prefilter]
    simp only [List.length_map, List.length_take]
    exact min_le_left _ _

theorem leadsWith_iff : ∀ n t : List Char, leadsWith n t = true ↔ ∃ u, t = n ++ u := by
  intro n
  induction n with
  | nil =>
    intro t
    simp [leadsWith]
  | cons a as ih =>
    intro t
    cases t with
    | nil =>
      rw [leadsWith]
      simp
    | cons b bs =>
      rw [leadsWith, Bool.and_eq_true]
      constructor
      · rintro ⟨hab, htail⟩
        have hab' : a = b := by simpa using hab
        obtain ⟨u, hu⟩ := (ih bs).mp htail
        exact ⟨u, by rw [hu, hab', List.cons_append]⟩
      · rintro ⟨u, hu⟩
        rw [List.cons_append] at hu
        injection hu with h1 h2
        exact ⟨by rw [h1]; simp, (ih bs).mpr ⟨u, h2⟩⟩

theorem leadsWith_refl (n : List Char) : leadsWith n n = true :=
  (leadsWith_iff n n).mpr ⟨[], (List.append_nil n).symm⟩

theorem leadsWith_append (n t v : List Char) (h : leadsWith n t = true) :
    leadsWith n (t ++ v) = true := by
  obtain ⟨u, rfl⟩ := (leadsWith_iff n t).mp h
  exact (leadsWith_iff n _).mpr ⟨u ++ v, by rw [List.append_assoc]⟩

theorem leadsWith_cons_inv (x : Char) (xs t : List Char)
    (h : leadsWith (x :: xs) t = true) :
    ∃ t', t = x :: t' ∧ leadsWith xs t' = true := by
  obtain ⟨u, rfl⟩ := (leadsWith_iff (x :: xs) t).mp h
  exact ⟨xs ++ u, List.cons_append x xs u, (leadsWith_iff xs _).mpr ⟨u, rfl⟩⟩

theorem leadsWith_take : ∀ (n u v : List Char), n.length ≤ u.length →
    leadsWith n (u ++ v) = leadsWith n u := by
  intro n
  induction n with
  | nil => intro u v _; rfl
  | cons a as ih =>
    intro u v hlen
    cases u with
    | nil => simp at hlen
    | cons b bs =>
      rw [List.cons_append, leadsWith, leadsWith, ih bs v (by simpa using hlen)]

theorem leadsWith_getD : ∀ n t : List Char, leadsWith n t = true →
    ∀ j, j < n.length → t.getD j 'A' = n.getD j 'A' := by
  intro n
  induction n with
  | nil =>
    intro t _ j hj
    cases hj
  | cons a as ih =>
    intro t h j hj
    cases t with
    | nil => cases h
    | cons b bs =>
      rw [leadsWith, Bool.and_eq_true] at h
      obtain ⟨hab, htail⟩ := h
      have hab' : a = b := by simpa using hab
      cases j with
      | zero => simp [hab']
      | succ j =>
        rw [List.getD_cons_succ, List.getD_cons_succ]
        exact ih bs htail j (by simpa using hj)

theorem getD_append_length : ∀ (a b : List Char) (d : Char),
    (a ++ b).getD a.length d = b.getD 0 d := by
  intro a
  induction a with
  | nil => intro b d; rfl
  | cons c cs ih =>
    intro b d
    rw [List.cons_append, List.length_cons, List.getD_cons_succ]
    exact ih b d

theorem drop_append_le : ∀ (i : ℕ) (a b : List Char), i ≤ a.length →
    (a ++ b).drop i = a.drop i ++ b := by
  intro i a
  induction a generalizing i with
  | nil =>
    intro b hi
    have : i = 0 := by simpa using hi
    rw [this]
    rfl
  | cons c cs ih =>
    intro b hi
    cases i with
    | zero => rfl
    | succ i =>
      rw [List.cons_append, List.drop_succ_cons, List.drop_succ_cons,
        ih i b (by simpa using hi)]

/-- Occurrence count of needle in s: the number of start positions at which
needle is an initial segment of the remaining suffix. -/
def countOcc (needle s : List Char) : ℕ :=
  ((Finset.range (s.length + 1)).filter fun i => leadsWith needle (s.drop i) = true).card

theorem two_le_countOcc {needle s : List Char} {i j : ℕ} (hij : i ≠ j)
    (hi : i ≤ s.length) (hj : j ≤ s.length)
    (hoi : leadsWith needle (s.drop i) = true)
    (hoj : leadsWith needle (s.drop j) = true) : 2 ≤ countOcc needle s := by
  rw [countOcc]
  have hmi : i ∈ (Finset.range (s.length + 1)).filter
      fun i => leadsWith needle (s.drop i) = true :=
    Finset.mem_filter.mpr ⟨Finset.mem_range.mpr (Nat.lt_succ_of_le hi), hoi⟩
  have hmj : j ∈ (Finset.range (s.length + 1)).filter
      fun i => leadsWith needle (s.drop i) = true :=
    Finset.mem_filter.mpr ⟨Finset.mem_range.mpr (Nat.lt_succ_of_le hj), hoj⟩
  have h2 := Finset.one_lt_card.mpr ⟨i, hmi, j, hmj, hij⟩
  omega

/-- Python str.replace for a nonempty needle given by head and tail: scan left
to right, replacing each non-overlapping occurrence of the needle by repl. -/
def replaceAllNe (n0 : Char) (ntail repl : List Char) : List Char → List Char
  | [] => []
  | c :: rest =>
    if leadsWith (n0 :: ntail) (c :: rest) then
      repl ++ replaceAllNe n0 ntail repl (rest.drop ntail.length)
    else
      c :: replaceAllNe n0 ntail repl rest
termination_by s => s.length
decreasing_by
  · simp only [List.length_drop, List.length_cons]
    omega
  · simp only [List.length_cons]
    omega

/-- Python str.replace(needle, repl) over character lists; both call sites in
the repository use nonempty needles, and an empty needle is the identity here. -/
def replaceAll (needle repl s : List Char) : List Char :=
  match needle with
  | [] => s
  | n0 :: ntail => replaceAllNe n0 ntail repl s

theorem replaceAllNe_append_needle (n0 : Char) (ntail repl : List Char) :
    ∀ base : List Char,
      (∀ i, i < base.length →
        leadsWith (n0 :: ntail) ((base ++ n0 :: ntail).drop i) = false) →
      replaceAllNe n0 ntail repl (base ++ n0 :: ntail) = base ++ repl := by
  intro base
  induction base with
  | nil =>
    intro _
    rw [List.nil_append, List.nil_append, replaceAllNe,
      if_pos (leadsWith_refl (n0 :: ntail)), List.drop_length, replaceAllNe,
      List.append_nil]
  | cons c cs ih =>
    intro h
    have h0 : leadsWith (n0 :: ntail) (c :: (cs ++ n0 :: ntail)) = false := by
      have := h 0 (by simp)
      rw [List.drop_zero, List.cons_append] at this
      exact this
    rw [List.cons_append, replaceAllNe, if_neg (by rw [h0]; exact Bool.false_ne_true),
      ih fun i hi => by
        have := h (i + 1) (by simpa using Nat.succ_lt_succ hi)
        rw [List.cons_append, List.drop_succ_cons] at this
        exact this]
    rw [List.cons_append]

theorem closesWith_iff (n s : List Char) : closesWith n s = true ↔ ∃ b, s = b ++ n := by
  rw [closesWith, leadsWith_iff]
  constructor
  · rintro ⟨u, hu⟩
    refine ⟨u.reverse, ?_⟩
    have hrev := congrArg List.reverse hu
    simpa using hrev
  · rintro ⟨b, rfl⟩
    exact ⟨b.reverse, by simp⟩

/-- The characters of "USDT". -/
def usdtChars : List Char := ['U', 'S', 'D', 'T']

/-- The characters of "/USDT". -/
def slashUsdtChars : List Char := ['/', 'U', 'S', 'D', 'T']

theorem roundtrip_list (s : List Char) (hcount : countOcc usdtChars s = 1)
    (hsuffix : closesWith usdtChars s = true) :
    replaceAll slashUsdtChars usdtChars (replaceAll usdtChars [] s ++ slashUsdtChars) = s := by
  obtain ⟨base, rfl⟩ := (closesWith_iff usdtChars s).mp hsuffix
  have hslen : (base ++ usdtChars).length = base.length + 4 := by
    simp [usdtChars]
  have hsuf : leadsWith usdtChars ((base ++ usdtChars).drop base.length) = true := by
    rw [drop_append_le base.length base usdtChars le_rfl, List.drop_length,
      List.nil_append]
    exact leadsWith_refl usdtChars
  have hnoearly : ∀ i, i < base.length →
      leadsWith usdtChars ((base ++ usdtChars).drop i) = false := by
    intro i hi
    cases hx : leadsWith usdtChars ((base ++ usdtChars).drop i) with
    | false => rfl
    | true =>
      exfalso
      have h2 := two_le_countOcc (Nat.ne_of_lt hi) (by omega) (by omega) hx hsuf
      omega
  have hstep1 : replaceAll usdtChars [] (base ++ usdtChars) = base := by
    have hkey := replaceAllNe_append_needle 'U' ['S', 'D', 'T'] [] base hnoearly
    rw [List.append_nil] at hkey
    exact hkey
  rw [hstep1]
  have hnoearly2 : ∀ i, i < base.length →
      leadsWith slashUsdtChars ((base ++ slashUsdtChars).drop i) = false := by
    intro i hi
    cases hx : leadsWith slashUsdtChars ((base ++ slashUsdtChars).drop i) with
    | false => rfl
    | true =>
      exfalso
      have hdrop : (base ++ slashUsdtChars).drop i = base.drop i ++ slashUsdtChars :=
        drop_append_le i base slashUsdtChars (le_of_lt hi)
      rw [hdrop] at hx
      have hklen : (base.drop i).length = base.length - i := by simp
      by_cases hk : 5 ≤ base.length - i
      · have hlen5 : slashUsdtChars.length ≤ (base.drop i).length := by
          rw [hklen]
          simpa [slashUsdtChars] using hk
        rw [leadsWith_take slashUsdtChars (base.drop i) slashUsdtChars hlen5] at hx
        obtain ⟨t', ht', htail⟩ := leadsWith_cons_inv '/' usdtChars (base.drop i)
          (by exact hx)
        have htail' : leadsWith usdtChars (base.drop (i + 1)) = true := by
          have hdd : base.drop (i + 1) = List.drop 1 (base.drop i) := by
            rw [List.drop_drop]
          rw [hdd, ht']
          exact htail
        have hocc1 : leadsWith usdtChars ((base ++ usdtChars).drop (i + 1)) = true := by
          rw [drop_append_le (i + 1) base usdtChars (by omega)]
          exact leadsWith_append usdtChars (base.drop (i + 1)) usdtChars htail'
        have h2 := two_le_countOcc (show i + 1 ≠ base.length by omega)
          (by omega) (by omega) hocc1 hsuf
        omega
      · have hk1 : 1 ≤ base.length - i := by omega
        have hk4 : base.length - i ≤ 4 := by omega
        have hj := leadsWith_getD slashUsdtChars (base.drop i ++ slashUsdtChars) hx
          (base.length - i) (by simp [slashUsdtChars]; omega)
        rw [← hklen, getD_append_length] at hj
        have hcases : base.length - i = 1 ∨ base.length - i = 2 ∨
            base.length - i = 3 ∨ base.length - i = 4 := by omega
        rcases hcases with hc | hc | hc | hc <;> rw [hklen, hc] at hj <;>
          exact absurd hj (by decide)
  have hstep2 := replaceAllNe_append_needle '/' ['U', 'S', 'D', 'T'] usdtChars base hnoearly2
  exact hstep2

/-- The display symbol built at main.py line 232: every occurrence of "USDT"
is deleted from the exchange symbol and "/USDT" is appended. -/
def displaySymbol (sym : String) : String :=
  String.mk (replaceAll "USDT".toList [] sym.toList ++ "/USDT".toList)

/-- The reverse map applied by add_oi at main.py line 253: every occurrence of
"/USDT" in the display symbol is replaced by "USDT". -/
def oiRequestSymbol (item : String) : String :=
  String.mk (replaceAll "/USDT".toList "USDT".toList item.toList)

/-- C9: for every exchange symbol in which "USDT" occurs exactly once, as its
final suffix, the add_oi reverse map recovers exactly the original exchange
symbol from the display form. -/
theorem display_symbol_roundtrip (sym : String)
    (hcount : countOcc usdtChars sym.toList = 1)
    (hsuffix : closesWith usdtChars sym.toList = true) :
    oiRequestSymbol (displaySymbol sym) = sym := by
  rw [oiRequestSymbol, displaySymbol]
  have husdt : "USDT".toList = usdtChars := rfl
  have hslash : "/USDT".toList = slashUsdtChars := rfl
  have hmk : (String.mk (replaceAll "USDT".toList [] sym.toList ++ "/USDT".toList)).toList
      = replaceAll "USDT".toList [] sym.toList ++ "/USDT".toList := rfl
  rw [hmk, husdt, hslash, roundtrip_list sym.toList hcount hsuffix]
  cases sym
  rfl

theorem display_symbol_roundtrip_witness :
    countOcc usdtChars "BTCUSDT".toList = 1 ∧
    closesWith usdtChars "BTCUSDT".toList = true ∧
    oiRequestSymbol (displaySymbol "BTCUSDT") = "BTCUSDT" := by
  refine ⟨by decide, by decide, display_symbol_roundtrip "BTCUSDT" (by decide) (by decide)⟩
